import Mathlib

/-!
Verification of the CQL (Corpus Query Language) engine
(`backend/services/collocation/cql_engine.py`).

The development shallowly embeds the engine: the parser
(`parse`, `_parse_token_pattern`, `_parse_conditions`,
`_parse_and_conditions`, `_parse_single_condition`, `_split_by_operator`),
the condition evaluator (`_match_condition`, `_match_all_conditions`,
`match_token`), the sequence matcher (`_try_match_sequence`,
`_find_matches_simple`, `find_matches`) and the validator
(`validate_query`).  Python dictionaries holding token attributes are
embedded as a fixed-shape record with optional string fields for the nine
supported attributes plus the two boolean flags read by the matcher.
Quantifier bounds are embedded as `Int` because the Python code applies
`int(...)` with no range check.  Lists of characters stand for Python
strings, and positions are carried as suffixes or explicit indices
matching the source loops.
-/

namespace CQL

/-- Error raised by the parser.  The Python code raises a single
`CQLParseError` carrying a message; each constructor below corresponds to
one distinct raise site of the source. -/
inductive PErr where
  | emptyQuery        : PErr
  | unclosedQuote     : PErr
  | unexpectedChar    : Char → PErr
  | unmatchedBracket  : PErr
  | invalidRepetition : PErr
  | invalidCondition  : PErr
  | unknownAttribute  : String → PErr
  | noValidPatterns   : PErr
deriving DecidableEq, Repr

/-- Embeds the `TokenCondition` dataclass. -/
structure TokenCondition where
  /-- Source field name `attribute`, a Lean keyword. -/
  attr : String
  value : String
  /-- Source field name `operator`, a Lean keyword. -/
  op : String
  negated : Bool := false
deriving DecidableEq, Repr

/-- Embeds the `TokenPattern` dataclass.  `or_conditions` is `None` in
Python by default, hence an `Option`; the Python truthiness test
`if pattern.or_conditions` is false both for `None` and for the empty
list, which the matcher below reproduces. -/
structure TokenPattern where
  conditions : List TokenCondition := []
  or_conditions : Option (List (List TokenCondition)) := none
  is_any : Bool := false
  min_count : Int := 1
  max_count : Int := 1
  optional : Bool := false
deriving DecidableEq, Repr

/-- Embeds the `CQLQuery` dataclass. -/
structure CQLQuery where
  patterns : List TokenPattern
  raw_query : String
  or_groups : List (List TokenPattern) := []
deriving DecidableEq, Repr

/-- Embeds a token attribute bag.  The source reads tokens as dictionaries
via `token.get(attr, '')`; here the nine supported attributes are optional
string fields (absent key or `None` value both map to `none`), and the two
flags read by the matcher are booleans. -/
structure Token where
  word : Option String := none
  /-- Source attribute name `lemma`, a Lean keyword. -/
  lemma_ : Option String := none
  pos : Option String := none
  tag : Option String := none
  dep : Option String := none
  headword : Option String := none
  headlemma : Option String := none
  headpos : Option String := none
  headdep : Option String := none
  is_space : Bool := false
  is_punct : Bool := false
deriving DecidableEq, Repr

/-- Embeds a match record yielded by `_find_matches_simple`. -/
structure CQLMatch where
  position : Nat
  end_position : Nat
  matched_tokens : List Token
  left_context : List Token
  right_context : List Token
deriving DecidableEq, Repr

/-- Embeds the validator result dictionary.  The success branch of
`validate_query` includes a `pattern_count` key; the failure branches
return only `valid` and `error`, hence `pattern_count` is optional. -/
structure ValidationResult where
  valid : Bool
  error : Option String
  pattern_count : Option Nat
deriving DecidableEq, Repr

/-- Embeds the `ATTRIBUTES` set of the engine. -/
def ATTRIBUTES : List String :=
  ["word", "lemma", "pos", "tag", "dep", "headword", "headlemma", "headpos", "headdep"]

/-- Embeds the `default_attribute` constructor argument, which callers
leave at its default value `word`. -/
def defaultAttribute : String := "word"

/-- Embeds `token.get(condition.attribute, '')` followed by the
`None`-to-empty-string normalisation: attribute names outside the nine
supported fields read as absent. -/
def getAttr (t : Token) (a : String) : Option String :=
  if a = "word" then t.word
  else if a = "lemma" then t.lemma_
  else if a = "pos" then t.pos
  else if a = "tag" then t.tag
  else if a = "dep" then t.dep
  else if a = "headword" then t.headword
  else if a = "headlemma" then t.headlemma
  else if a = "headpos" then t.headpos
  else if a = "headdep" then t.headdep
  else none

/-- Attribute value as the matcher sees it: missing reads as `""`. -/
def attrVal (t : Token) (a : String) : String :=
  (getAttr t a).getD ""

/-- Embeds Python `str.lower()` restricted to ASCII (written through the
character list so that it evaluates inside the kernel). -/
def strLower (s : String) : String :=
  ⟨s.toList.map Char.toLower⟩

/-- Whitespace test embedding Python `str.isspace` / `str.strip`
(restricted to the ASCII whitespace characters Lean knows). -/
def isWs (c : Char) : Bool := c.isWhitespace

/-- Embeds Python `str.strip()` on a character list. -/
def trimChars (cs : List Char) : List Char :=
  ((cs.dropWhile isWs).reverse.dropWhile isWs).reverse

/-- Word-character test embedding the regex class `\w` (ASCII). -/
def isWordChar (c : Char) : Bool :=
  c.isAlphanum || c = '_'

/-!
Regex model.  The source calls `re.fullmatch(value, token_value,
re.IGNORECASE)` from the Python standard library, which is not part of
this repository.  Modelled from the spec: a case-insensitive, full-string
(start-to-end, not substring) regex match; a pattern that fails to
compile is reported as such so the caller can fall back to exact
comparison.  The model supports literal characters, `.`, grouping,
alternation, and the `*`, `+`, `?` quantifiers, plus backslash-escaped
punctuation; any other construct (character classes, counted repetition,
anchors, alphanumeric escapes) is treated as failing to compile.
Case-insensitivity is modelled by lower-casing literal characters at
compile time and input characters at match time.
-/

/-- Regular expression abstract syntax. -/
inductive RE where
  | emp : RE
  | eps : RE
  | ch : Char → RE
  | dot : RE
  | cat : RE → RE → RE
  | alt : RE → RE → RE
  | star : RE → RE
deriving DecidableEq, Repr

/-- Nullability of a regular expression. -/
def reNull : RE → Bool
  | .emp => false
  | .eps => true
  | .ch _ => false
  | .dot => false
  | .cat a b => reNull a && reNull b
  | .alt a b => reNull a || reNull b
  | .star _ => true

/-- Brzozowski derivative of a regular expression with respect to one
character.  `.` matches any character except a newline, as in Python
without `DOTALL`. -/
def reDeriv : RE → Char → RE
  | .emp, _ => .emp
  | .eps, _ => .emp
  | .ch d, c => if d = c then .eps else .emp
  | .dot, c => if c = '\n' then .emp else .eps
  | .cat a b, c =>
      if reNull a then .alt (.cat (reDeriv a c) b) (reDeriv b c)
      else .cat (reDeriv a c) b
  | .alt a b, c => .alt (reDeriv a c) (reDeriv b c)
  | .star a, c => .cat (reDeriv a c) (.star a)

/-- Full-string case-insensitive match: fold the derivative over the
lower-cased input and test nullability, so the whole string must be
consumed (anchored at both ends). -/
def reFullmatchCI (r : RE) (s : String) : Bool :=
  reNull (s.toList.foldl (fun a c => reDeriv a c.toLower) r)

/-- Characters that may not stand bare as a literal atom in the model. -/
def reMeta : List Char :=
  ['*', '+', '?', '|', '(', ')', '[', ']', '{', '}', '^', '$', '\\']

mutual

/-- Parses an alternation `cat ('|' alt)?`. -/
def reAlt : Nat → List Char → Option (RE × List Char)
  | 0, _ => none
  | f + 1, s =>
    match reCat f s with
    | none => none
    | some (a, r) =>
      match r with
      | '|' :: r2 =>
        match reAlt f r2 with
        | none => none
        | some (b, r3) => some (RE.alt a b, r3)
      | _ => some (a, r)

/-- Parses a concatenation of factors, stopping at `)or`, `|` or the end. -/
def reCat : Nat → List Char → Option (RE × List Char)
  | 0, _ => none
  | f + 1, s =>
    match s with
    | [] => some (RE.eps, [])
    | ')' :: _ => some (RE.eps, s)
    | '|' :: _ => some (RE.eps, s)
    | _ =>
      match reFactor f s with
      | none => none
      | some (a, r) =>
        match reCat f r with
        | none => none
        | some (b, r2) => some (RE.cat a b, r2)

/-- Parses an atom with at most one postfixed quantifier; a stacked
quantifier is a compile error as in Python. -/
def reFactor : Nat → List Char → Option (RE × List Char)
  | 0, _ => none
  | f + 1, s =>
    match reAtom f s with
    | none => none
    | some (a, r) =>
      match r with
      | '*' :: r2 => some (RE.star a, r2)
      | '+' :: r2 => some (RE.cat a (RE.star a), r2)
      | '?' :: r2 => some (RE.alt a RE.eps, r2)
      | _ => some (a, r)

/-- Parses a single atom: a group, a dot, an escaped punctuation
character, or a bare literal character (lower-cased for `IGNORECASE`). -/
def reAtom : Nat → List Char → Option (RE × List Char)
  | 0, _ => none
  | f + 1, s =>
    match s with
    | [] => none
    | '(' :: r =>
      match reAlt f r with
      | none => none
      | some (a, r2) =>
        match r2 with
        | ')' :: r3 => some (a, r3)
        | _ => none
    | '.' :: r => some (RE.dot, r)
    | '\\' :: c :: r =>
      if c.isAlphanum then none else some (RE.ch c.toLower, r)
    | c :: r =>
      if c ∈ reMeta then none else some (RE.ch c.toLower, r)

end

/-- Compiles a pattern string in the regex model; `none` stands for
`re.error` (or an unsupported construct, see above). -/
def compileRegex (v : String) : Option RE :=
  let s := v.toList
  match reAlt (8 * s.length + 16) s with
  | some (r, []) => some r
  | _ => none

/-- Embeds `_match_condition`: look the attribute up with empty-string
default, dispatch on the operator (`==`, `!==`, `=`, `!=`, anything else
is no match), fall back to case-insensitive exact comparison when the
regex fails to compile, and finally negate when `negated` is set. -/
def matchCondition (t : Token) (c : TokenCondition) : Bool :=
  let tv := attrVal t c.attr
  let m :=
    if c.op = "==" then strLower tv == strLower c.value
    else if c.op = "!==" then strLower tv != strLower c.value
    else if c.op = "=" then
      match compileRegex c.value with
      | some r => reFullmatchCI r tv
      | none => strLower tv == strLower c.value
    else if c.op = "!=" then
      match compileRegex c.value with
      | some r => !reFullmatchCI r tv
      | none => strLower tv != strLower c.value
    else false
  if c.negated then !m else m

/-- Embeds `_match_all_conditions` (AND over the list). -/
def matchAllConditions (t : Token) (conds : List TokenCondition) : Bool :=
  conds.all (matchCondition t)

/-- Embeds `match_token`: `is_any` matches anything; a non-empty
`or_conditions` list is an OR over its AND-groups; otherwise the plain
AND conditions decide (Python treats both `None` and `[]` as falsy). -/
def matchToken (t : Token) (p : TokenPattern) : Bool :=
  if p.is_any then true
  else
    match p.or_conditions with
    | some ogs =>
      if ogs.isEmpty then matchAllConditions t p.conditions
      else ogs.any (matchAllConditions t)
    | none => matchAllConditions t p.conditions

/-!
Parser.  The Python `parse` first strips the query, then tokenises the
string into a flat list of segments (token patterns and top-level OR
separators), then groups the segments.  Index arithmetic in the source is
replaced by recursion over the remaining suffix of characters; the
top-level tokenising loop uses a fuel counter equal to the input length
plus one (each iteration consumes at least one character, so the fuel
never runs out on the real entry point).
-/

/-- First occurrence of a character: returns the part strictly before it
and the part strictly after it.  Embeds Python `str.index` with its
`ValueError` as `none`. -/
def splitAtChar (cs : List Char) (c : Char) : Option (List Char × List Char) :=
  match cs with
  | [] => none
  | d :: rest =>
    if d = c then some ([], rest)
    else
      match splitAtChar rest c with
      | none => none
      | some (a, b) => some (d :: a, b)

/-- Embeds Python `str.split(sep)` for a one-character separator. -/
def splitOnChar (cs : List Char) (c : Char) : List (List Char) :=
  match cs with
  | [] => [[]]
  | d :: rest =>
    let r := splitOnChar rest c
    if d = c then [] :: r
    else
      match r with
      | [] => [[d]]
      | a :: b => (d :: a) :: b

/-- Digit run to a natural number. -/
def digitsToNat (ds : List Char) : Option Nat :=
  if ds ≠ [] ∧ ds.all Char.isDigit then
    some (ds.foldl (fun n c => 10 * n + (c.toNat - '0'.toNat)) 0)
  else none

/-- Embeds Python `int(s)` on a string: strip whitespace, optional sign,
then decimal digits; anything else raises `ValueError`, here `none`.
(Underscore digit separators, accepted by Python, are not modelled; the
engine never produces them.) -/
def pythonInt (cs : List Char) : Option Int :=
  match trimChars cs with
  | '-' :: ds => (digitsToNat ds).map (fun n => -(n : Int))
  | '+' :: ds => (digitsToNat ds).map (fun n => (n : Int))
  | ds => (digitsToNat ds).map (fun n => (n : Int))

/-- Embeds the bracket-counting loop of `_parse_token_pattern`: scans the
characters after the opening `[`, keeping a depth of extra open brackets,
and returns the bracket content together with the suffix after the
matching `]`; `none` when the stream ends first (unmatched bracket). -/
def bracketScan (cs : List Char) (depth : Nat) : Option (List Char × List Char) :=
  match cs with
  | [] => none
  | c :: rest =>
    if c = ']' then
      if depth = 0 then some ([], rest)
      else
        match bracketScan rest (depth - 1) with
        | none => none
        | some (co, re) => some (c :: co, re)
    else if c = '[' then
      match bracketScan rest (depth + 1) with
      | none => none
      | some (co, re) => some (c :: co, re)
    else
      match bracketScan rest depth with
      | none => none
      | some (co, re) => some (c :: co, re)

/-- Embeds `_split_by_operator`: split on the separator outside quotes
and at parenthesis depth zero.  As in the source, a quote toggles the
in-quotes flag, parentheses adjust the depth even inside quotes, an empty
part between two separators is kept, and an empty final accumulator is
dropped. -/
def splitByOpAux (op : Char) (cs : List Char) (inQ : Bool) (depth : Int)
    (cur : List Char) : List (List Char) :=
  match cs with
  | [] => if cur = [] then [] else [cur]
  | c :: rest =>
    if c = '"' then splitByOpAux op rest (!inQ) depth (cur ++ [c])
    else if c = '(' then splitByOpAux op rest inQ (depth + 1) (cur ++ [c])
    else if c = ')' then splitByOpAux op rest inQ (depth - 1) (cur ++ [c])
    else if c = op ∧ inQ = false ∧ depth = 0 then
      cur :: splitByOpAux op rest inQ depth []
    else splitByOpAux op rest inQ depth (cur ++ [c])

/-- Entry point of `_split_by_operator`. -/
def splitByOp (cs : List Char) (op : Char) : List (List Char) :=
  splitByOpAux op cs false 0 []

/-- Completes the tail of the `CONDITION_PATTERN` regex after the
operator: `\s*"([^"]*)"`; returns the captured value and the suffix. -/
def condValueTail (cs : List Char) : Option (List Char × List Char) :=
  match cs.dropWhile isWs with
  | '"' :: r =>
    let v := r.takeWhile (fun c => c ≠ '"')
    match r.drop v.length with
    | '"' :: r2 => some (v, r2)
    | _ => none
  | _ => none

/-- Tries the operator alternatives of `CONDITION_PATTERN` in the order
the regex engine would (`===?|!==?|=` with a greedy optional), each
together with the rest of the pattern, which reproduces regex
backtracking over the alternation. -/
def condOpScan (cs : List Char) : List String → Option (String × List Char × List Char)
  | [] => none
  | o :: os =>
    if o.toList.isPrefixOf cs then
      match condValueTail (cs.drop o.length) with
      | some (v, r) => some (o, v, r)
      | none => condOpScan cs os
    else condOpScan cs os

/-- Operator alternatives in regex trial order. -/
def condOps : List String := ["===", "==", "!==", "!=", "="]

/-- Embeds `CONDITION_PATTERN.match(part)`: anchored at the start,
optional `!`, a non-empty run of word characters, optional whitespace,
an operator, optional whitespace, then a quoted value.  Trailing
characters after the quoted value are ignored, exactly as `re.match`
ignores them.  Returns (negation mark, attribute, operator, value). -/
def condPatternMatch (part : List Char) :
    Option (Bool × List Char × String × List Char) :=
  let (negMark, r1) :=
    match part with
    | '!' :: r => (true, r)
    | _ => (false, part)
  let attr := r1.takeWhile isWordChar
  if attr = [] then none
  else
    let r2 := (r1.dropWhile isWordChar).dropWhile isWs
    match condOpScan r2 condOps with
    | some (o, v, _) => some (negMark, attr, o, v)
    | none => none

/-- Embeds `_parse_single_condition`: the regex match, the bare-quoted
fallback to the default attribute, the `!`-prefix XOR, and the closed
attribute-set check. -/
def parseSingleCondition (part : List Char) (negated : Bool) :
    Except PErr TokenCondition :=
  match condPatternMatch part with
  | some (negMark, attr, o, v) =>
    let negated2 := if negMark then !negated else negated
    let attrS : String := ⟨attr⟩
    if attrS ∈ ATTRIBUTES then
      .ok { attr := attrS, value := ⟨v⟩, op := o, negated := negated2 }
    else .error (.unknownAttribute attrS)
  | none =>
    if part.head? = some '"' ∧ part.getLast? = some '"' then
      .ok { attr := defaultAttribute, value := ⟨(part.drop 1).dropLast⟩,
            op := "=", negated := negated }
    else .error .invalidCondition

/-- Embeds the per-part body of the `_parse_and_conditions` loop:
strip, skip empties, handle the `!` prefix (which does not fire on `!=`)
with its optional parenthesis stripping, then parse the condition. -/
def parseAndPart (raw : List Char) : Except PErr (Option TokenCondition) :=
  let part := trimChars raw
  if part = [] then .ok none
  else
    let (negated, part2) :=
      if part.head? = some '!' ∧ ¬ ['!', '='].isPrefixOf part then
        let p := trimChars (part.drop 1)
        if p.head? = some '(' ∧ p.getLast? = some ')' then
          (true, trimChars ((p.drop 1).dropLast))
        else (true, p)
      else (false, part)
    match parseSingleCondition part2 negated with
    | .ok c => .ok (some c)
    | .error e => .error e

/-- Embeds `_parse_and_conditions`: split on `&` and collect. -/
def parseAndList (parts : List (List Char)) : Except PErr (List TokenCondition) :=
  match parts with
  | [] => .ok []
  | p :: ps =>
    match parseAndPart p with
    | .error e => .error e
    | .ok none => parseAndList ps
    | .ok (some c) =>
      match parseAndList ps with
      | .error e => .error e
      | .ok cs => .ok (c :: cs)

/-- Embeds `_parse_and_conditions` on raw bracket content. -/
def parseAndConditions (content : List Char) : Except PErr (List TokenCondition) :=
  parseAndList (splitByOp content '&')

/-- Collects the OR groups of `_parse_conditions`: each part is stripped
and parsed as an AND group, and empty groups are not appended. -/
def parseOrGroups (parts : List (List Char)) :
    Except PErr (List (List TokenCondition)) :=
  match parts with
  | [] => .ok []
  | p :: ps =>
    match parseAndConditions (trimChars p) with
    | .error e => .error e
    | .ok cs =>
      match parseOrGroups ps with
      | .error e => .error e
      | .ok gs => .ok (if cs = [] then gs else cs :: gs)

/-- Embeds `_parse_conditions`: split on `|`; with more than one part the
result is OR groups only, otherwise plain AND conditions. -/
def parseConditions (content : List Char) :
    Except PErr (List TokenCondition × Option (List (List TokenCondition))) :=
  let orParts := splitByOp content '|'
  if 2 ≤ orParts.length then
    match parseOrGroups orParts with
    | .error e => .error e
    | .ok gs => .ok ([], some gs)
  else
    match parseAndConditions content with
    | .error e => .error e
    | .ok cs => .ok (cs, none)

/-- Embeds the quantifier clause of `_parse_token_pattern` on the suffix
after the closing bracket: `{n}`, `{m,n}` (with `0` and `100` defaults
for omitted bounds, and only the first two comma-separated parts read),
`?`, `*`, or no quantifier.  Returns (min, max, optional, suffix). -/
def parseQuant (cs : List Char) : Except PErr (Int × Int × Bool × List Char) :=
  match cs with
  | '{' :: rest =>
    (match splitAtChar rest '}' with
     | none => .error .invalidRepetition
     | some (rc, after) =>
       if rc.contains ',' then
         match splitOnChar rc ',' with
         | p0 :: p1 :: _ =>
           let minO : Option Int :=
             if trimChars p0 = [] then some 0 else pythonInt p0
           let maxO : Option Int :=
             if trimChars p1 = [] then some 100 else pythonInt p1
           (match minO, maxO with
            | some mn, some mx => .ok (mn, mx, false, after)
            | _, _ => .error .invalidRepetition)
         | _ => .error .invalidRepetition
       else
         match pythonInt rc with
         | some v => .ok (v, v, false, after)
         | none => .error .invalidRepetition)
  | '?' :: rest => .ok (0, 1, true, rest)
  | '*' :: rest => .ok (0, 100, false, rest)
  | _ => .ok (1, 1, false, cs)

/-- Embeds `_parse_token_pattern` on the suffix after the opening `[`:
find the matching bracket, read the quantifier, and build either the
any-token pattern (empty content) or the conditioned pattern. -/
def parseTokenPattern (cs : List Char) : Except PErr (TokenPattern × List Char) :=
  match bracketScan cs 0 with
  | none => .error .unmatchedBracket
  | some (content, after) =>
    match parseQuant after with
    | .error e => .error e
    | .ok (mn, mx, opt, after2) =>
      let contentT := trimChars content
      if contentT = [] then
        .ok ({ conditions := [], or_conditions := none, is_any := true,
               min_count := mn, max_count := mx, optional := opt }, after2)
      else
        match parseConditions contentT with
        | .error e => .error e
        | .ok (conds, orConds) =>
          .ok ({ conditions := conds, or_conditions := orConds, is_any := false,
                 min_count := mn, max_count := mx, optional := opt }, after2)

/-- Pattern produced by the bare quoted-string branch of `parse`. -/
def quotedPattern (w : List Char) : TokenPattern :=
  { conditions := [{ attr := defaultAttribute, value := ⟨w⟩, op := "=" }] }

/-- Segment of phase 1 of `parse`: a token pattern or an OR separator. -/
inductive Seg where
  | pat : TokenPattern → Seg
  | orSep : Seg
deriving DecidableEq, Repr

/-- Embeds the phase-1 tokenising loop of `parse`: skip whitespace, then
dispatch on `[`, `"` and `|`; anything else is an error.  The fuel is one
more than the remaining length at the entry point and every iteration
consumes at least one character, so the fuel-exhausted branch (an error)
is unreachable from `parse`. -/
def scanSegments : Nat → List Char → Except PErr (List Seg)
  | 0, _ => .error .noValidPatterns
  | fuel + 1, s =>
    match s.dropWhile isWs with
    | [] => .ok []
    | c :: rest =>
      if c = '[' then
        match parseTokenPattern rest with
        | .error e => .error e
        | .ok (p, r) =>
          match scanSegments fuel r with
          | .error e => .error e
          | .ok segs => .ok (.pat p :: segs)
      else if c = '"' then
        match splitAtChar rest '"' with
        | none => .error .unclosedQuote
        | some (w, r) =>
          match scanSegments fuel r with
          | .error e => .error e
          | .ok segs => .ok (.pat (quotedPattern w) :: segs)
      else if c = '|' then
        match scanSegments fuel rest with
        | .error e => .error e
        | .ok segs => .ok (.orSep :: segs)
      else .error (.unexpectedChar c)

/-- Patterns of a segment list, in order. -/
def segPatterns (segs : List Seg) : List TokenPattern :=
  segs.filterMap (fun s => match s with | .pat p => some p | .orSep => none)

/-- Whether the segment list holds a top-level OR separator. -/
def hasOrSeg (segs : List Seg) : Bool :=
  segs.any (fun s => match s with | .orSep => true | .pat _ => false)

/-- Embeds the phase-2 grouping loop of `parse`: split the segments on
OR separators, dropping empty groups (leading, trailing or doubled
separators). -/
def groupSegs (segs : List Seg) (cur : List TokenPattern) :
    List (List TokenPattern) :=
  match segs with
  | [] => if cur = [] then [] else [cur]
  | .orSep :: rest =>
    if cur = [] then groupSegs rest []
    else cur :: groupSegs rest []
  | .pat p :: rest => groupSegs rest (cur ++ [p])

/-- Embeds `parse`: strip, tokenise, then either the backward-compatible
simple query (no top-level OR), or the grouped query, collapsing a single
surviving group. -/
def parse (query : String) : Except PErr CQLQuery :=
  let s := trimChars query.toList
  if s = [] then .error .emptyQuery
  else
    match scanSegments (s.length + 1) s with
    | .error e => .error e
    | .ok segs =>
      if segs = [] then .error .noValidPatterns
      else if hasOrSeg segs = false then
        let pats := segPatterns segs
        if pats = [] then .error .noValidPatterns
        else .ok { patterns := pats, raw_query := ⟨s⟩, or_groups := [] }
      else
        match groupSegs segs [] with
        | [] => .error .noValidPatterns
        | [g] => .ok { patterns := g, raw_query := ⟨s⟩, or_groups := [] }
        | g :: gs => .ok { patterns := g, raw_query := ⟨s⟩, or_groups := g :: gs }

/-!
Sequence matcher and context extraction.
-/

/-- Embeds the repetition `while` loop of `_try_match_sequence` on the
token suffix at the cursor: consume while the running count is below
`max_count` and the current token matches; returns the consumed run. -/
def consumeRun (p : TokenPattern) (ts : List Token) (cnt : Int) : List Token :=
  match ts with
  | [] => []
  | t :: rest =>
    if cnt < p.max_count ∧ matchToken t p then t :: consumeRun p rest (cnt + 1)
    else []

/-- Embeds the pattern loop of `_try_match_sequence`: walk the patterns,
at each one either skip it (stream exhausted and `min_count` zero or
`optional`), fail (stream exhausted otherwise, or greedy run below
`min_count`), or append the greedy run and advance the cursor. -/
def tryAux (tokens : List Token) (patterns : List TokenPattern)
    (pos : Nat) (acc : List Token) : Option (Nat × List Token) :=
  match patterns with
  | [] => some (pos, acc)
  | p :: ps =>
    if tokens.length ≤ pos then
      if p.min_count = 0 ∨ p.optional then tryAux tokens ps pos acc
      else none
    else
      let run := consumeRun p (tokens.drop pos) 0
      if (run.length : Int) < p.min_count then none
      else tryAux tokens ps (pos + run.length) (acc ++ run)

/-- Embeds `_try_match_sequence`: run the pattern loop from the start
position and reject an empty total match. -/
def tryMatchSequence (tokens : List Token) (patterns : List TokenPattern)
    (startPos : Nat) : Option (Nat × Nat × List Token) :=
  match tryAux tokens patterns startPos [] with
  | none => none
  | some (e, m) => if m = [] then none else some (startPos, e, m)

/-- Default token used for the (unreachable) out-of-range index access of
the context loops. -/
def dummyToken : Token := {}

/-- Embeds the body of the two context loops: visit the index positions
in loop order, keep non-whitespace tokens (prepending for the left side,
appending for the right), and stop as soon as `context_size` tokens are
collected.  The check runs after the conditional insertion, as in the
source. -/
def ctxLoop (tokens : List Token) (csize : Nat) (idxs : List Nat)
    (front : Bool) (acc : List Token) : List Token :=
  match idxs with
  | [] => acc
  | i :: rest =>
    let t := tokens.getD i dummyToken
    let acc2 := if t.is_space then acc else if front then t :: acc else acc ++ [t]
    if csize ≤ acc2.length then acc2 else ctxLoop tokens csize rest front acc2

/-- Embeds the left-context loop of `_find_matches_simple`: indices from
`start - 1` down to `max 0 (start - context_size * 2)`. -/
def leftContext (tokens : List Token) (startPos : Nat) (csize : Nat) : List Token :=
  let idxs := (List.range (min startPos (csize * 2))).map (fun k => startPos - 1 - k)
  ctxLoop tokens csize idxs true []

/-- Embeds the right-context loop of `_find_matches_simple`: indices from
`end` up to `min (length) (end + context_size * 2) - 1`. -/
def rightContext (tokens : List Token) (endPos : Nat) (csize : Nat) : List Token :=
  let idxs := (List.range (min (tokens.length - endPos) (csize * 2))).map
    (fun k => endPos + k)
  ctxLoop tokens csize idxs false []

/-- Embeds the scanning loop of `_find_matches_simple`: at each start
position try the sequence; on success, discard the span when every
consumed token is whitespace-or-punctuation-only, otherwise yield the
match record; then resume at the match start plus one (or the next
position).  The fuel equals the token count at the entry point; every
iteration advances the position by one (the yielded start equals the
scanned position), so the guard and the fuel run out together. -/
def findAux (tokens : List Token) (patterns : List TokenPattern) (csize : Nat) :
    Nat → Nat → List CQLMatch
  | 0, _ => []
  | fuel + 1, pos =>
    if tokens.length ≤ pos then []
    else
      match tryMatchSequence tokens patterns pos with
      | some (s, e, m) =>
        if m.isEmpty || m.all (fun t => t.is_space || t.is_punct) then
          findAux tokens patterns csize fuel (pos + 1)
        else
          { position := s, end_position := e, matched_tokens := m,
            left_context := leftContext tokens s csize,
            right_context := rightContext tokens e csize } ::
            findAux tokens patterns csize fuel (s + 1)
      | none => findAux tokens patterns csize fuel (pos + 1)

/-- Embeds `_find_matches_simple` (the generator is embedded as the list
of the matches it yields, in order). -/
def findMatchesSimple (tokens : List Token) (query : CQLQuery)
    (csize : Nat) : List CQLMatch :=
  findAux tokens query.patterns csize tokens.length 0

/-- Embeds the per-alternative de-duplication loop of `find_matches`:
yield a match only when its `(start, end)` pair has not been seen. -/
def dedupMatches (ms : List CQLMatch) (seen : List (Nat × Nat)) :
    List CQLMatch × List (Nat × Nat) :=
  match ms with
  | [] => ([], seen)
  | m :: rest =>
    let key := (m.position, m.end_position)
    if key ∈ seen then dedupMatches rest seen
    else
      let (out, seen2) := dedupMatches rest (key :: seen)
      (m :: out, seen2)

/-- Embeds the alternative loop of `find_matches`: run the simple matcher
once per alternative, in declaration order, threading the seen-span set. -/
def orGroupsLoop (tokens : List Token) (raw : String) (csize : Nat)
    (alts : List (List TokenPattern)) (seen : List (Nat × Nat)) : List CQLMatch :=
  match alts with
  | [] => []
  | alt :: rest =>
    let ms := findMatchesSimple tokens
      { patterns := alt, raw_query := raw, or_groups := [] } csize
    let (out, seen2) := dedupMatches ms seen
    out ++ orGroupsLoop tokens raw csize rest seen2

/-- Embeds `find_matches`: the alternated path when `or_groups` is
non-empty, the simple path otherwise. -/
def findMatches (tokens : List Token) (query : CQLQuery) (csize : Nat) :
    List CQLMatch :=
  if query.or_groups.isEmpty then findMatchesSimple tokens query csize
  else orGroupsLoop tokens query.raw_query csize query.or_groups []

/-- Human-readable message for each parser error, standing for the
message carried by the Python exception. -/
def errMsg : PErr → String
  | .emptyQuery => "Empty query"
  | .unclosedQuote => "Unclosed quote"
  | .unexpectedChar _ => "Unexpected character"
  | .unmatchedBracket => "Unmatched bracket"
  | .invalidRepetition => "Invalid repetition syntax"
  | .invalidCondition => "Invalid condition"
  | .unknownAttribute _ => "Unknown attribute"
  | .noValidPatterns => "No valid patterns found in query"

/-- Embeds `validate_query`: parse, and on success report the pattern
count (summed across the alternatives when present); on failure report
the message.  The failure dictionary of the source carries no
`pattern_count` key, hence `none` there. -/
def validateQuery (query : String) : ValidationResult :=
  match parse query with
  | .ok p =>
    let pc :=
      if p.or_groups.isEmpty then p.patterns.length
      else (p.or_groups.map List.length).sum
    { valid := true, error := none, pattern_count := some pc }
  | .error e => { valid := false, error := some (errMsg e), pattern_count := none }

/-!
Specification-side auxiliary definitions and concrete example data used
by the theorems below.
-/

/-- Declarative greedy-run length: the number of consecutive tokens at
the head of the suffix that match the pattern, ignoring `max_count`. -/
def matchStreak (p : TokenPattern) : List Token → Nat
  | [] => 0
  | t :: rest => if matchToken t p then matchStreak p rest + 1 else 0

/-- Span of a match, the de-duplication key of `find_matches`. -/
def spanOf (m : CQLMatch) : Nat × Nat := (m.position, m.end_position)

/-- Token with part-of-speech `NOUN`. -/
def nounTok : Token := { word := some "car", pos := some "NOUN" }

/-- Token with part-of-speech `ADJ`. -/
def adjTok : Token := { word := some "red", pos := some "ADJ" }

/-- Token with part-of-speech `X` (used for the adjacent-match example). -/
def xTok : Token := { word := some "x", pos := some "X" }

/-- Token with part-of-speech `Y`. -/
def yTok : Token := { word := some "y", pos := some "Y" }

/-- Whitespace placeholder token. -/
def spaceTok : Token := { word := some " ", is_space := true }

/-- Tokens `A`, `B`, `C`, `D` of the overlap example. -/
def aTok : Token := { word := some "a" }

/-- Second token of the overlap example. -/
def bTok : Token := { word := some "b" }

/-- Third token of the overlap example. -/
def cTok : Token := { word := some "c" }

/-- Fourth token of the overlap example. -/
def dTok : Token := { word := some "d" }

/-- Condition of a `pos`-attribute pattern. -/
def posCond (v : String) : TokenCondition :=
  { attr := "pos", value := v, op := "=" }

/-- Single-token pattern on the `pos` attribute with given bounds. -/
def posPat (v : String) (mn mx : Int) : TokenPattern :=
  { conditions := [posCond v], min_count := mn, max_count := mx }

/-- Parsed form of the alternated example query. -/
def altQ : CQLQuery :=
  { patterns := [posPat "NOUN" 1 1, posPat "VERB" 1 1],
    raw_query := "[pos=\"NOUN\"] [pos=\"VERB\"] | [pos=\"ADJ\"] [pos=\"NOUN\"]",
    or_groups := [[posPat "NOUN" 1 1, posPat "VERB" 1 1],
                  [posPat "ADJ" 1 1, posPat "NOUN" 1 1]] }

/-- Parsed form of the greedy-repetition example query. -/
def greedyQ : CQLQuery :=
  { patterns := [posPat "NOUN" 1 3, posPat "NOUN" 1 1],
    raw_query := "[pos=\"NOUN\"]\x7b1,3\x7d [pos=\"NOUN\"]",
    or_groups := [] }

/-- Variant of the greedy query whose repetition stops at two. -/
def greedyQ2 : CQLQuery :=
  { patterns := [posPat "NOUN" 1 2, posPat "NOUN" 1 1],
    raw_query := "[pos=\"NOUN\"]\x7b1,2\x7d [pos=\"NOUN\"]",
    or_groups := [] }

/-- Parsed form of the query matching only word `b`. -/
def bQ : CQLQuery :=
  { patterns := [{ conditions := [{ attr := "word", value := "b", op := "=" }] }],
    raw_query := "[word=\"b\"]",
    or_groups := [] }

/-- Parsed form of the query matching part-of-speech `X`. -/
def xQ : CQLQuery :=
  { patterns := [posPat "X" 1 1], raw_query := "[pos=\"X\"]", or_groups := [] }

/-- Token stream of the context-extraction example: words at positions
0, 1, 3, 5 and 6, whitespace placeholders at positions 2 and 4. -/
def ctxToks : List Token :=
  [aTok, bTok, spaceTok, xTok, spaceTok, cTok, dTok]

/-- Condition carrying the anchoring example regex `cat.*`. -/
def catCond : TokenCondition := { attr := "word", value := "cat.*", op := "=" }

/-- Condition carrying an uncompilable regex value. -/
def parenCond : TokenCondition := { attr := "word", value := "(", op := "=" }

/-- Token whose word is `catalog`. -/
def catalogTok : Token := { word := some "catalog" }

/-- Token whose word is `bobcats`. -/
def bobcatsTok : Token := { word := some "bobcats" }

/-- Token whose word is the single character `(`. -/
def parenTok : Token := { word := some "(" }

/-- Four consecutive `NOUN` tokens. -/
def fourNouns : List Token := List.replicate 4 nounTok

/-- Three consecutive `NOUN` tokens. -/
def threeNouns : List Token := List.replicate 3 nounTok

/-- Well-formedness facet of a parsed pattern: the any-token flag comes
with empty condition lists. -/
def patternWF (p : TokenPattern) : Prop :=
  p.is_any = true → p.conditions = [] ∧ p.or_conditions = none

/-- Decidable equality on parser results, for concrete evaluation. -/
instance {ε α : Type} [DecidableEq ε] [DecidableEq α] : DecidableEq (Except ε α) :=
  fun a b =>
    match a, b with
    | .ok x, .ok y =>
      if h : x = y then .isTrue (by rw [h]) else .isFalse (by simp [h])
    | .error x, .error y =>
      if h : x = y then .isTrue (by rw [h]) else .isFalse (by simp [h])
    | .ok _, .error _ => .isFalse (by simp)
    | .error _, .ok _ => .isFalse (by simp)

/-!
Theorems.  Helper lemmas come first; each claim is then settled by one
named theorem.
-/

/-- The greedy streak never exceeds the suffix length. -/
theorem matchStreak_le_length (p : TokenPattern) :
    ∀ ts : List Token, matchStreak p ts ≤ ts.length := by
  intro ts
  induction ts with
  | nil => simp [matchStreak]
  | cons t rest ih =>
    by_cases h : matchToken t p
    · simp [matchStreak, h]; omega
    · simp [matchStreak, h]

/-- The repetition loop consumes exactly the prefix of length the minimum
of the remaining `max_count` budget and the matching streak. -/
theorem consumeRun_eq (p : TokenPattern) :
    ∀ (ts : List Token) (cnt : Int),
      consumeRun p ts cnt =
        ts.take (min (p.max_count - cnt).toNat (matchStreak p ts)) := by
  intro ts
  induction ts with
  | nil => intro cnt; simp [consumeRun]
  | cons t rest ih =>
    intro cnt
    by_cases hm : matchToken t p
    · by_cases hc : cnt < p.max_count
      · have h1 : (p.max_count - cnt).toNat = (p.max_count - (cnt + 1)).toNat + 1 := by
          omega
        rw [consumeRun, if_pos ⟨hc, hm⟩, ih (cnt + 1)]
        simp [matchStreak, hm, h1, Nat.succ_min_succ]
      · have h0 : (p.max_count - cnt).toNat = 0 := by omega
        rw [consumeRun, if_neg (by tauto), h0]
        simp
    · rw [consumeRun, if_neg (by tauto)]
      simp [matchStreak, hm]

/-- C1: non-alternated sequence matching is greedy with no backtracking.
At each pattern of the list, when the stream is exhausted the pattern is
skipped exactly when `min_count` equals zero or the pattern is optional
(otherwise the whole attempt fails); when tokens remain, the pattern
consumes exactly the greedy run — the matching streak at the cursor
capped by `max_count` — and the attempt fails when that run is shorter
than `min_count`; the remaining patterns are then matched after the
advanced cursor, with the consumed run fixed once and for all (the
continuation never revisits the choice, even if a later pattern fails). -/
theorem c1_greedy_no_backtracking (tokens : List Token) (p : TokenPattern)
    (ps : List TokenPattern) (pos : Nat) (acc : List Token) :
    tryAux tokens (p :: ps) pos acc =
      if tokens.length ≤ pos then
        (if p.min_count = 0 ∨ p.optional then tryAux tokens ps pos acc
         else none)
      else
        (let g := min p.max_count.toNat (matchStreak p (tokens.drop pos))
         if (g : Int) < p.min_count then none
         else tryAux tokens ps (pos + g) (acc ++ (tokens.drop pos).take g)) := by
  rw [tryAux]
  by_cases hend : tokens.length ≤ pos
  · simp [hend]
  · rw [if_neg hend, if_neg hend]
    have hrun : consumeRun p (tokens.drop pos) 0 =
        (tokens.drop pos).take (min p.max_count.toNat (matchStreak p (tokens.drop pos))) := by
      rw [consumeRun_eq]
      norm_num
    have hlen : ((tokens.drop pos).take
        (min p.max_count.toNat (matchStreak p (tokens.drop pos)))).length =
        min p.max_count.toNat (matchStreak p (tokens.drop pos)) := by
      rw [List.length_take]
      have h2 := matchStreak_le_length p (tokens.drop pos)
      omega
    simp only [hrun, hlen]

/-- Successful runs of the pattern loop extend the accumulator by the
consumed tokens and advance the cursor by exactly their number. -/
theorem tryAux_spec (tokens : List Token) :
    ∀ (ps : List TokenPattern) (pos : Nat) (acc : List Token)
      (e : Nat) (m : List Token),
      tryAux tokens ps pos acc = some (e, m) →
      ∃ ext, m = acc ++ ext ∧ e = pos + ext.length := by
  intro ps
  induction ps with
  | nil =>
    intro pos acc e m h
    rw [tryAux] at h
    refine ⟨[], ?_, ?_⟩ <;> simp_all
  | cons p ps ih =>
    intro pos acc e m h
    rw [tryAux] at h
    by_cases hend : tokens.length ≤ pos
    · rw [if_pos hend] at h
      by_cases hskip : p.min_count = 0 ∨ p.optional
      · rw [if_pos hskip] at h
        exact ih pos acc e m h
      · rw [if_neg hskip] at h
        exact absurd h (by simp)
    · rw [if_neg hend] at h
      simp only [] at h
      by_cases hmin : ((consumeRun p (tokens.drop pos) 0).length : Int) < p.min_count
      · rw [if_pos hmin] at h
        exact absurd h (by simp)
      · rw [if_neg hmin] at h
        obtain ⟨ext2, hm, he⟩ := ih _ _ _ _ h
        refine ⟨consumeRun p (tokens.drop pos) 0 ++ ext2, ?_, ?_⟩
        · rw [hm, List.append_assoc]
        · rw [he, List.length_append]
          omega

/-- Shape of a successful `_try_match_sequence`: the reported start is
the scanned position, the matched tokens are non-empty, and the end is
the start plus the number of matched tokens. -/
theorem tryMatchSequence_spec (tokens : List Token) (patterns : List TokenPattern)
    (startPos s e : Nat) (m : List Token)
    (h : tryMatchSequence tokens patterns startPos = some (s, e, m)) :
    s = startPos ∧ m ≠ [] ∧ e = startPos + m.length := by
  rw [tryMatchSequence] at h
  cases h0 : tryAux tokens patterns startPos [] with
  | none => rw [h0] at h; exact absurd h (by simp)
  | some v =>
    obtain ⟨e0, m0⟩ := v
    rw [h0] at h
    dsimp only at h
    by_cases hnil : m0 = []
    · rw [if_pos hnil] at h
      exact absurd h (by simp)
    · rw [if_neg hnil] at h
      obtain ⟨hs, he, hm⟩ : startPos = s ∧ e0 = e ∧ m0 = m := by
        simpa using h
      obtain ⟨ext, hext, hlen⟩ := tryAux_spec tokens patterns startPos [] e0 m0 h0
      simp only [List.nil_append] at hext
      subst he hm hext
      exact ⟨hs.symm, hnil, by omega⟩

/-- C4: matches may overlap.  One scanning step at any position first
decides a yield at that position and then always resumes at the next
position — after yielding a match at span `[start, end)` the scan resumes
at `start + 1`, not at `end`.  Concretely, on tokens `A, B, C, D` with a
pattern matching only `B` the stream is exactly the span `[1, 2)` and the
position scanned after the yield is `2`; when two adjacent tokens both
satisfy the pattern, matches are yielded at start `1` and start `2`. -/
theorem c4_overlapping_matches :
    (∀ (tokens : List Token) (patterns : List TokenPattern) (csize fuel pos : Nat),
      findAux tokens patterns csize (fuel + 1) pos =
        (if tokens.length ≤ pos then []
         else
           (match tryMatchSequence tokens patterns pos with
            | some (_, e, m) =>
              if m.isEmpty || m.all (fun t => t.is_space || t.is_punct) then []
              else [{ position := pos, end_position := e, matched_tokens := m,
                      left_context := leftContext tokens pos csize,
                      right_context := rightContext tokens e csize }]
            | none => []) ++ findAux tokens patterns csize fuel (pos + 1)))
    ∧ findMatchesSimple [aTok, bTok, cTok, dTok] bQ 5 =
        [{ position := 1, end_position := 2, matched_tokens := [bTok],
           left_context := [aTok], right_context := [cTok, dTok] }]
    ∧ (findMatchesSimple [yTok, xTok, xTok, yTok] xQ 5).map spanOf = [(1, 2), (2, 3)] := by
  refine ⟨?_, by decide, by decide⟩
  intro tokens patterns csize fuel pos
  rw [findAux]
  by_cases hend : tokens.length ≤ pos
  · simp [hend]
  · rw [if_neg hend, if_neg hend]
    cases h : tryMatchSequence tokens patterns pos with
    | none => simp
    | some v =>
      obtain ⟨s, e, m⟩ := v
      obtain ⟨hs, -, -⟩ := tryMatchSequence_spec tokens patterns pos s e m h
      subst hs
      by_cases hfil : (m.isEmpty || m.all (fun t => t.is_space || t.is_punct)) = true
      · simp [hfil]
      · rw [Bool.not_eq_true] at hfil
        simp [hfil]

/-- Every match yielded by the scanning loop has non-empty matched
tokens with at least one token that is neither whitespace nor
punctuation, a strictly later end than start, and a start no earlier
than the scanned position. -/
theorem mem_findAux (tokens : List Token) (patterns : List TokenPattern)
    (csize : Nat) :
    ∀ (fuel pos : Nat) (m : CQLMatch),
      m ∈ findAux tokens patterns csize fuel pos →
      m.matched_tokens ≠ [] ∧
      (∃ t ∈ m.matched_tokens, t.is_space = false ∧ t.is_punct = false) ∧
      m.position < m.end_position ∧ pos ≤ m.position := by
  intro fuel
  induction fuel with
  | zero => intro pos m h; rw [findAux] at h; exact absurd h (by simp)
  | succ fuel ih =>
    intro pos m h
    rw [findAux] at h
    by_cases hend : tokens.length ≤ pos
    · rw [if_pos hend] at h
      exact absurd h (by simp)
    · rw [if_neg hend] at h
      cases h0 : tryMatchSequence tokens patterns pos with
      | none =>
        rw [h0] at h
        dsimp only at h
        have := ih (pos + 1) m h
        exact ⟨this.1, this.2.1, this.2.2.1, by omega⟩
      | some v =>
        obtain ⟨s, e, mm⟩ := v
        rw [h0] at h
        dsimp only at h
        obtain ⟨hs, hne, he⟩ := tryMatchSequence_spec tokens patterns pos s e mm h0
        subst hs
        by_cases hfil : (mm.isEmpty || mm.all (fun t => t.is_space || t.is_punct)) = true
        · rw [if_pos hfil] at h
          have := ih (s + 1) m h
          exact ⟨this.1, this.2.1, this.2.2.1, by omega⟩
        · rw [if_neg hfil] at h
          rcases List.mem_cons.mp h with hm | hm
          · subst hm
            dsimp only
            rw [Bool.or_eq_true, not_or] at hfil
            obtain ⟨hfil1, hfil2⟩ := hfil
            refine ⟨hne, ?_, ?_, le_refl _⟩
            · rw [Bool.not_eq_true, List.all_eq_false] at hfil2
              obtain ⟨t, ht, htf⟩ := hfil2
              exact ⟨t, ht, by simpa [Bool.or_eq_false_iff] using htf⟩
            · have hlen : 0 < mm.length := List.length_pos.mpr hne
              omega
          · have := ih (s + 1) m hm
            exact ⟨this.1, this.2.1, this.2.2.1, by omega⟩

/-- De-duplication only filters: its output is a sublist of its input. -/
theorem dedupMatches_subset :
    ∀ (ms : List CQLMatch) (seen : List (Nat × Nat)) (m : CQLMatch),
      m ∈ (dedupMatches ms seen).1 → m ∈ ms := by
  intro ms
  induction ms with
  | nil => intro seen m h; rw [dedupMatches] at h; exact absurd h (by simp)
  | cons m0 rest ih =>
    intro seen m h
    rw [dedupMatches] at h
    by_cases hseen : (m0.position, m0.end_position) ∈ seen
    · rw [if_pos hseen] at h
      exact List.mem_cons_of_mem _ (ih seen m h)
    · rw [if_neg hseen] at h
      simp only [] at h
      rcases List.mem_cons.mp h with hm | hm
      · exact hm ▸ List.mem_cons_self _ _
      · exact List.mem_cons_of_mem _ (ih _ m hm)

/-- Every match yielded by the alternative loop comes from the simple
matcher run on one of the alternatives. -/
theorem mem_orGroupsLoop (tokens : List Token) (raw : String) (csize : Nat) :
    ∀ (alts : List (List TokenPattern)) (seen : List (Nat × Nat)) (m : CQLMatch),
      m ∈ orGroupsLoop tokens raw csize alts seen →
      ∃ alt ∈ alts, m ∈ findMatchesSimple tokens
        { patterns := alt, raw_query := raw, or_groups := [] } csize := by
  intro alts
  induction alts with
  | nil => intro seen m h; rw [orGroupsLoop] at h; exact absurd h (by simp)
  | cons alt rest ih =>
    intro seen m h
    rw [orGroupsLoop] at h
    simp only [] at h
    rcases List.mem_append.mp h with hm | hm
    · exact ⟨alt, List.mem_cons_self _ _, dedupMatches_subset _ _ m hm⟩
    · obtain ⟨a, ha, hma⟩ := ih _ m hm
      exact ⟨a, List.mem_cons_of_mem _ ha, hma⟩

/-- C9: every match yielded by `find_matches` contains at least one
consumed token that is not whitespace-or-punctuation-only (spans whose
consumed tokens are all space or punctuation are discarded), the matched
token list is never empty, and every yielded match has start strictly
below end — no zero-width matches, even when every pattern has a zero
`min_count`. -/
theorem c9_no_degenerate_matches (tokens : List Token) (q : CQLQuery)
    (csize : Nat) (m : CQLMatch) (h : m ∈ findMatches tokens q csize) :
    m.matched_tokens ≠ [] ∧
    (∃ t ∈ m.matched_tokens, t.is_space = false ∧ t.is_punct = false) ∧
    m.position < m.end_position := by
  rw [findMatches] at h
  by_cases hg : q.or_groups.isEmpty = true
  · rw [if_pos hg] at h
    have := mem_findAux tokens q.patterns csize tokens.length 0 m h
    exact ⟨this.1, this.2.1, this.2.2.1⟩
  · rw [if_neg hg] at h
    obtain ⟨alt, -, hma⟩ := mem_orGroupsLoop tokens q.raw_query csize q.or_groups [] m h
    have := mem_findAux tokens alt csize tokens.length 0 m hma
    exact ⟨this.1, this.2.1, this.2.2.1⟩

/-- Witness for C9 at a concrete stream and query. -/
theorem c9_no_degenerate_matches_witness :
    ([bTok] ≠ ([] : List Token)) ∧
    (∃ t ∈ [bTok], t.is_space = false ∧ t.is_punct = false) ∧ 1 < 2 := by
  have h := c9_no_degenerate_matches [aTok, bTok, cTok, dTok] bQ 5
    { position := 1, end_position := 2, matched_tokens := [bTok],
      left_context := [aTok], right_context := [cTok, dTok] } (by decide)
  exact h

/-- The simple scanning loop yields matches with strictly increasing
start positions. -/
theorem findAux_sorted (tokens : List Token) (patterns : List TokenPattern)
    (csize : Nat) :
    ∀ (fuel pos : Nat),
      (findAux tokens patterns csize fuel pos).Pairwise
        (fun a b => a.position < b.position) := by
  intro fuel
  induction fuel with
  | zero => intro pos; rw [findAux]; simp
  | succ fuel ih =>
    intro pos
    rw [findAux]
    by_cases hend : tokens.length ≤ pos
    · rw [if_pos hend]; simp
    · rw [if_neg hend]
      cases h0 : tryMatchSequence tokens patterns pos with
      | none => exact ih (pos + 1)
      | some v =>
        obtain ⟨s, e, mm⟩ := v
        dsimp only
        obtain ⟨hs, -, -⟩ := tryMatchSequence_spec tokens patterns pos s e mm h0
        subst hs
        by_cases hfil : (mm.isEmpty || mm.all (fun t => t.is_space || t.is_punct)) = true
        · rw [if_pos hfil]
          exact ih (s + 1)
        · rw [if_neg hfil]
          refine List.Pairwise.cons ?_ (ih (s + 1))
          intro b hb
          have := (mem_findAux tokens patterns csize fuel (s + 1) b hb).2.2.2
          dsimp only
          omega

/-- Pairwise-increasing starts make the spans distinct. -/
theorem spans_nodup_of_sorted (l : List CQLMatch)
    (h : l.Pairwise (fun a b => a.position < b.position)) :
    (l.map spanOf).Nodup :=
  List.Pairwise.map spanOf
    (fun a b hab => by
      intro hc
      simp only [spanOf, Prod.mk.injEq] at hc
      omega) h

/-- Specification of the de-duplication pass: the emitted spans are
distinct, none of them was seen before, and the final seen set is the
initial one plus the emitted spans. -/
theorem dedupMatches_spec :
    ∀ (ms : List CQLMatch) (seen : List (Nat × Nat)),
      ((dedupMatches ms seen).1.map spanOf).Nodup ∧
      (∀ m ∈ (dedupMatches ms seen).1, spanOf m ∉ seen) ∧
      (∀ k, k ∈ (dedupMatches ms seen).2 ↔
        k ∈ seen ∨ k ∈ (dedupMatches ms seen).1.map spanOf) := by
  intro ms
  induction ms with
  | nil =>
    intro seen
    rw [dedupMatches]
    refine ⟨by simp, by simp, ?_⟩
    intro k
    simp
  | cons m0 rest ih =>
    intro seen
    rw [dedupMatches]
    by_cases hseen : (m0.position, m0.end_position) ∈ seen
    · rw [if_pos hseen]
      exact ih seen
    · rw [if_neg hseen]
      obtain ⟨ih1, ih2, ih3⟩ := ih ((m0.position, m0.end_position) :: seen)
      dsimp only
      refine ⟨?_, ?_, ?_⟩
      · refine List.Nodup.cons ?_ ih1
        intro hc
        obtain ⟨m1, hm1, hk⟩ := List.mem_map.mp hc
        have := ih2 m1 hm1
        rw [hk] at this
        exact this (List.mem_cons_self _ _)
      · intro m hm
        rcases List.mem_cons.mp hm with hm | hm
        · subst hm
          exact hseen
        · intro hc
          exact ih2 m hm (List.mem_cons_of_mem _ hc)
      · intro k
        rw [ih3 k]
        constructor
        · rintro (hk | hk)
          · rcases List.mem_cons.mp hk with hk | hk
            · right
              rw [List.map_cons, hk]
              exact List.mem_cons_self _ _
            · exact Or.inl hk
          · right
            rw [List.map_cons]
            exact List.mem_cons_of_mem _ hk
        · rintro (hk | hk)
          · exact Or.inl (List.mem_cons_of_mem _ hk)
          · rw [List.map_cons] at hk
            rcases List.mem_cons.mp hk with hk | hk
            · refine Or.inl ?_
              rw [hk]
              exact List.mem_cons_self _ _
            · exact Or.inr hk

/-- The alternative loop never emits two matches with the same span nor a
span listed as already seen. -/
theorem orGroupsLoop_spans (tokens : List Token) (raw : String) (csize : Nat) :
    ∀ (alts : List (List TokenPattern)) (seen : List (Nat × Nat)),
      ((orGroupsLoop tokens raw csize alts seen).map spanOf).Nodup ∧
      (∀ m ∈ orGroupsLoop tokens raw csize alts seen, spanOf m ∉ seen) := by
  intro alts
  induction alts with
  | nil =>
    intro seen
    rw [orGroupsLoop]
    exact ⟨by simp, by simp⟩
  | cons alt rest ih =>
    intro seen
    rw [orGroupsLoop]
    dsimp only
    set ms := findMatchesSimple tokens
      { patterns := alt, raw_query := raw, or_groups := [] } csize with hms
    obtain ⟨d1, d2, d3⟩ := dedupMatches_spec ms seen
    obtain ⟨r1, r2⟩ := ih (dedupMatches ms seen).2
    refine ⟨?_, ?_⟩
    · rw [List.map_append, List.nodup_append]
      refine ⟨d1, r1, ?_⟩
      intro k hk1 hk2
      obtain ⟨m1, hm1, hk1e⟩ := List.mem_map.mp hk1
      obtain ⟨m2, hm2, hk2e⟩ := List.mem_map.mp hk2
      have hin : k ∈ (dedupMatches ms seen).2 := (d3 k).mpr (Or.inr hk1)
      exact (hk2e ▸ r2 m2 hm2) hin
    · intro m hm
      rcases List.mem_append.mp hm with hm | hm
      · exact d2 m hm
      · intro hc
        exact r2 m hm ((d3 _).mpr (Or.inl hc))

/-- C3: for a query carrying multiple alternative pattern lists,
`find_matches` runs the non-alternated matcher once per alternative in
declaration order and de-duplicates by the `(start, end)` pair, so every
span is yielded at most once; on the example query
`[pos="NOUN"] [pos="VERB"] | [pos="ADJ"] [pos="NOUN"]` over the stream
`ADJ("red"), NOUN("car")` exactly one match is produced, spanning both
tokens, and it is the one the second alternative produces (the first
alternative yields nothing). -/
theorem c3_alternation_dedup :
    (∀ (tokens : List Token) (q : CQLQuery) (csize : Nat),
      ((findMatches tokens q csize).map spanOf).Nodup)
    ∧ parse "[pos=\"NOUN\"] [pos=\"VERB\"] | [pos=\"ADJ\"] [pos=\"NOUN\"]" = .ok altQ
    ∧ findMatches [adjTok, nounTok] altQ 5 =
        [{ position := 0, end_position := 2, matched_tokens := [adjTok, nounTok],
           left_context := [], right_context := [] }]
    ∧ findMatchesSimple [adjTok, nounTok]
        { patterns := [posPat "NOUN" 1 1, posPat "VERB" 1 1],
          raw_query := altQ.raw_query, or_groups := [] } 5 = []
    ∧ findMatchesSimple [adjTok, nounTok]
        { patterns := [posPat "ADJ" 1 1, posPat "NOUN" 1 1],
          raw_query := altQ.raw_query, or_groups := [] } 5 =
        [{ position := 0, end_position := 2, matched_tokens := [adjTok, nounTok],
           left_context := [], right_context := [] }] := by
  refine ⟨?_, by decide, by decide, by decide, by decide⟩
  intro tokens q csize
  rw [findMatches]
  by_cases hg : q.or_groups.isEmpty = true
  · rw [if_pos hg]
    exact spans_nodup_of_sorted _ (findAux_sorted tokens q.patterns csize tokens.length 0)
  · rw [if_neg hg]
    exact (orGroupsLoop_spans tokens q.raw_query csize q.or_groups []).1

/-- The context loop never grows past `context_size` once below it. -/
theorem ctxLoop_length (tokens : List Token) (csize : Nat) (front : Bool) :
    ∀ (idxs : List Nat) (acc : List Token),
      acc.length < csize →
      (ctxLoop tokens csize idxs front acc).length ≤ csize := by
  intro idxs
  induction idxs with
  | nil => intro acc h; rw [ctxLoop]; omega
  | cons i rest ih =>
    intro acc h
    rw [ctxLoop]
    set t := tokens.getD i dummyToken with ht
    set acc2 := if t.is_space then acc else if front then t :: acc else acc ++ [t]
      with hacc2
    have hlen2 : acc2.length ≤ acc.length + 1 := by
      rw [hacc2]
      by_cases h1 : t.is_space <;> by_cases h2 : front = true <;>
        simp [h1, h2]
    by_cases hstop : csize ≤ acc2.length
    · rw [if_pos hstop]
      omega
    · rw [if_neg hstop]
      exact ih acc2 (by omega)

/-- The context loop only collects non-whitespace tokens. -/
theorem ctxLoop_nonspace (tokens : List Token) (csize : Nat) (front : Bool) :
    ∀ (idxs : List Nat) (acc : List Token),
      (∀ t ∈ acc, t.is_space = false) →
      ∀ t ∈ ctxLoop tokens csize idxs front acc, t.is_space = false := by
  intro idxs
  induction idxs with
  | nil => intro acc hacc; rw [ctxLoop]; exact hacc
  | cons i rest ih =>
    intro acc hacc
    rw [ctxLoop]
    set t0 := tokens.getD i dummyToken with ht0
    have hacc2 : ∀ t ∈ (if t0.is_space then acc
        else if front then t0 :: acc else acc ++ [t0]), t.is_space = false := by
      by_cases h1 : t0.is_space
      · simpa [h1] using hacc
      · by_cases h2 : front = true <;>
          · intro t ht
            simp [h1, h2] at ht
            rcases ht with ht | ht
            · first
              | (subst ht; simpa using h1)
              | exact hacc t ht
            · first
              | (subst ht; simpa using h1)
              | exact hacc t ht
    by_cases hstop : csize ≤ (if t0.is_space then acc
        else if front then t0 :: acc else acc ++ [t0]).length
    · rw [if_pos hstop]
      exact hacc2
    · rw [if_neg hstop]
      exact ih _ hacc2

/-- Every token the context loop returns is either from the initial
accumulator or read at one of the visited indices. -/
theorem ctxLoop_window (tokens : List Token) (csize : Nat) (front : Bool) :
    ∀ (idxs : List Nat) (acc : List Token),
      ∀ t ∈ ctxLoop tokens csize idxs front acc,
        t ∈ acc ∨ ∃ i ∈ idxs, t = tokens.getD i dummyToken := by
  intro idxs
  induction idxs with
  | nil =>
    intro acc t ht
    rw [ctxLoop] at ht
    exact Or.inl ht
  | cons i rest ih =>
    intro acc t ht
    rw [ctxLoop] at ht
    set t0 := tokens.getD i dummyToken with ht0
    have hmem : ∀ u ∈ (if t0.is_space then acc
        else if front then t0 :: acc else acc ++ [t0]),
        u ∈ acc ∨ u = t0 := by
      intro u hu
      by_cases h1 : t0.is_space
      · simp [h1] at hu
        exact Or.inl hu
      · by_cases h2 : front = true <;>
          · simp [h1, h2] at hu
            tauto
    by_cases hstop : csize ≤ (if t0.is_space then acc
        else if front then t0 :: acc else acc ++ [t0]).length
    · rw [if_pos hstop] at ht
      rcases hmem t ht with h | h
      · exact Or.inl h
      · exact Or.inr ⟨i, List.mem_cons_self _ _, h⟩
    · rw [if_neg hstop] at ht
      rcases ih _ t ht with h | ⟨j, hj, hje⟩
      · rcases hmem t h with h | h
        · exact Or.inl h
        · exact Or.inr ⟨i, List.mem_cons_self _ _, h⟩
      · exact Or.inr ⟨j, List.mem_cons_of_mem _ hj, hje⟩

/-- C10: context extraction walks backward from `start - 1` and forward
from `end`, skipping whitespace-flagged tokens, collecting at most
`context_size` non-whitespace tokens per side while visiting only raw
positions within `context_size * 2` of the match boundary (and never
outside the stream on the right); with `context_size = 2` a mid-stream
match yields at most two non-whitespace tokens per side, and fewer when
the stream boundary is reached first. -/
theorem c10_context_window :
    (∀ (tokens : List Token) (startPos endPos csize : Nat),
      (leftContext tokens startPos csize).length ≤ csize ∧
      (rightContext tokens endPos csize).length ≤ csize ∧
      (∀ t ∈ leftContext tokens startPos csize, t.is_space = false) ∧
      (∀ t ∈ rightContext tokens endPos csize, t.is_space = false) ∧
      (∀ t ∈ leftContext tokens startPos csize,
        ∃ i, i < startPos ∧ startPos ≤ i + 1 + csize * 2 ∧
          t = tokens.getD i dummyToken) ∧
      (∀ t ∈ rightContext tokens endPos csize,
        ∃ i, endPos ≤ i ∧ i < endPos + csize * 2 ∧ i < tokens.length ∧
          t = tokens.getD i dummyToken))
    ∧ leftContext ctxToks 3 2 = [aTok, bTok]
    ∧ rightContext ctxToks 4 2 = [cTok, dTok]
    ∧ leftContext ctxToks 1 2 = [aTok] := by
  refine ⟨?_, by decide, by decide, by decide⟩
  intro tokens startPos endPos csize
  refine ⟨?_, ?_, ?_, ?_, ?_, ?_⟩
  · rcases Nat.eq_zero_or_pos csize with h0 | h0
    · subst h0
      simp [leftContext, ctxLoop]
    · exact ctxLoop_length tokens csize true _ [] (by simpa using h0)
  · rcases Nat.eq_zero_or_pos csize with h0 | h0
    · subst h0
      simp [rightContext, ctxLoop]
    · exact ctxLoop_length tokens csize false _ [] (by simpa using h0)
  · exact ctxLoop_nonspace tokens csize true _ [] (by simp)
  · exact ctxLoop_nonspace tokens csize false _ [] (by simp)
  · intro t ht
    rcases ctxLoop_window tokens csize true _ [] t ht with h | ⟨i, hi, hie⟩
    · exact absurd h (by simp)
    · obtain ⟨k, hk, hik⟩ := List.mem_map.mp hi
      rw [List.mem_range] at hk
      refine ⟨i, ?_, ?_, hie⟩ <;> omega
  · intro t ht
    rcases ctxLoop_window tokens csize false _ [] t ht with h | ⟨i, hi, hie⟩
    · exact absurd h (by simp)
    · obtain ⟨k, hk, hik⟩ := List.mem_map.mp hi
      rw [List.mem_range] at hk
      refine ⟨i, ?_, ?_, ?_, hie⟩ <;> omega

/-- Witness for C10 at a concrete stream. -/
theorem c10_context_window_witness :
    (leftContext ctxToks 3 2).length ≤ 2 ∧ (rightContext ctxToks 4 2).length ≤ 2 :=
  ⟨(c10_context_window.1 ctxToks 3 4 2).1, (c10_context_window.1 ctxToks 3 4 2).2.1⟩

/-- C2: single-condition evaluation looks the attribute up with an
empty-string default (absent attributes and attributes outside the nine
supported names read as empty), lower-cases and compares for `==` and
`!==`, performs an anchored full-string case-insensitive regex match for
`=` and `!=` — so `word="cat.*"` accepts `catalog` and rejects `bobcats`
— silently falls back to case-insensitive exact comparison when the
pattern does not compile, and finally XORs with the negation flag. -/
theorem c2_condition_evaluation :
    (∀ (t : Token) (c : TokenCondition), c.op = "==" →
      matchCondition t c =
        (strLower (attrVal t c.attr) == strLower c.value).xor c.negated)
    ∧ (∀ (t : Token) (c : TokenCondition), c.op = "!==" →
      matchCondition t c =
        (!(strLower (attrVal t c.attr) == strLower c.value)).xor c.negated)
    ∧ (∀ (t : Token) (c : TokenCondition) (r : RE), c.op = "=" →
      compileRegex c.value = some r →
      matchCondition t c = (reFullmatchCI r (attrVal t c.attr)).xor c.negated)
    ∧ (∀ (t : Token) (c : TokenCondition), c.op = "=" →
      compileRegex c.value = none →
      matchCondition t c =
        (strLower (attrVal t c.attr) == strLower c.value).xor c.negated)
    ∧ (∀ (t : Token) (c : TokenCondition) (r : RE), c.op = "!=" →
      compileRegex c.value = some r →
      matchCondition t c = (!reFullmatchCI r (attrVal t c.attr)).xor c.negated)
    ∧ (∀ (t : Token) (c : TokenCondition), c.op = "!=" →
      compileRegex c.value = none →
      matchCondition t c =
        (!(strLower (attrVal t c.attr) == strLower c.value)).xor c.negated)
    ∧ (∀ a : String, attrVal dummyToken a = "")
    ∧ matchCondition catalogTok catCond = true
    ∧ matchCondition bobcatsTok catCond = false
    ∧ compileRegex "(" = none
    ∧ matchCondition parenTok parenCond = true := by
  refine ⟨?_, ?_, ?_, ?_, ?_, ?_, ?_, by decide, by decide, by decide, by decide⟩
  · intro t c hop
    cases hneg : c.negated <;>
      simp [matchCondition, hop, hneg, Bool.xor_false, Bool.xor_true, bne]
  · intro t c hop
    cases hneg : c.negated <;>
      simp [matchCondition, hop, hneg, Bool.xor_false, Bool.xor_true, bne]
  · intro t c r hop hre
    cases hneg : c.negated <;>
      simp [matchCondition, hop, hre, hneg, Bool.xor_false, Bool.xor_true, bne]
  · intro t c hop hre
    cases hneg : c.negated <;>
      simp [matchCondition, hop, hre, hneg, Bool.xor_false, Bool.xor_true, bne]
  · intro t c r hop hre
    cases hneg : c.negated <;>
      simp [matchCondition, hop, hre, hneg, Bool.xor_false, Bool.xor_true, bne]
  · intro t c hop hre
    cases hneg : c.negated <;>
      simp [matchCondition, hop, hre, hneg, Bool.xor_false, Bool.xor_true, bne]
  · intro a
    rw [attrVal]
    have : getAttr dummyToken a = none := by
      rw [getAttr]
      split_ifs <;> rfl
    rw [this]
    rfl

/-- Witness for C2 at concrete tokens and conditions. -/
theorem c2_condition_evaluation_witness :
    matchCondition catalogTok { attr := "word", value := "catalog", op := "==" } =
      (strLower (attrVal catalogTok "word") == strLower "catalog").xor false ∧
    matchCondition catalogTok catCond =
      (reFullmatchCI (RE.cat (RE.ch 'c') (RE.cat (RE.ch 'a') (RE.cat (RE.ch 't')
        (RE.cat (RE.star RE.dot) RE.eps)))) (attrVal catalogTok "word")).xor false ∧
    matchCondition parenTok parenCond =
      (strLower (attrVal parenTok "word") == strLower "(").xor false :=
  ⟨c2_condition_evaluation.1 catalogTok _ rfl,
   c2_condition_evaluation.2.2.1 catalogTok catCond _ rfl (by decide),
   c2_condition_evaluation.2.2.2.1 parenTok parenCond rfl (by decide)⟩

/-- Counterexample to C5 as stated: the input `x` is non-empty and
non-whitespace, contains no bracket, no repetition brace and no quote
(so none of the five listed failure classes applies — in particular no
bracket content and no attribute name occurs), yet `parse` raises, with
the unexpected-character error. -/
theorem c5_counterexample :
    parse "x" = .error (.unexpectedChar 'x') ∧
    trimChars "x".toList ≠ [] ∧
    "x".toList = ['x'] ∧ 'x' ∉ ['[', ']', '{', '}', '"'] := by
  refine ⟨by decide, by decide, by decide, by decide⟩

/-- C5 (amended): `parse` raises on empty or whitespace-only input, on an
unmatched bracket, on invalid repetition syntax, on bracket content that
neither conforms to the condition grammar nor is a bare quoted literal,
and on an attribute name outside the closed nine-name set — and
additionally on an unexpected top-level character and on an unclosed
top-level quote; on success it returns a fully constructed query.  One
representative instance per error class, plus a success case. -/
theorem c5_amended_error_classes :
    parse "" = .error .emptyQuery ∧
    parse "   " = .error .emptyQuery ∧
    parse "[pos=\"N\"" = .error .unmatchedBracket ∧
    parse "[]\x7ba\x7d" = .error .invalidRepetition ∧
    parse "[]\x7b1,b\x7d" = .error .invalidRepetition ∧
    parse "[pos - ]" = .error .invalidCondition ∧
    parse "[foo=\"v\"]" = .error (.unknownAttribute "foo") ∧
    parse "x" = .error (.unexpectedChar 'x') ∧
    parse "\"abc" = .error .unclosedQuote ∧
    parse "[pos=\"NOUN\"]" =
      .ok { patterns := [posPat "NOUN" 1 1], raw_query := "[pos=\"NOUN\"]",
            or_groups := [] } := by
  refine ⟨by decide, by decide, by decide, by decide, by decide, by decide,
          by decide, by decide, by decide, by decide⟩

/-- Counterexample to C6 as stated: on an invalid query the returned
record carries no `pattern_count` value at all (the source failure
branches build a dictionary with only `valid` and `error`), so the result
is not a record with an integer `pattern_count` field. -/
theorem c6_counterexample :
    (validateQuery "").valid = false ∧
    (validateQuery "").error = some "Empty query" ∧
    (validateQuery "").pattern_count = none := by
  refine ⟨by decide, by decide, by decide⟩

/-- C6 (amended): `validate_query` is total (the embedding returns a
result for every query string, mirroring the blanket exception handler),
`valid` is true exactly when `parse` succeeds, `error` is absent exactly
when `parse` succeeds, and `pattern_count` is present exactly on success,
equal to the total pattern count summed across alternatives when the
alternative list is present. -/
theorem c6_validate_reports_parse (q : String) :
    ((validateQuery q).valid = true ↔ (parse q).isOk = true) ∧
    ((validateQuery q).error = none ↔ (parse q).isOk = true) ∧
    (validateQuery q).pattern_count =
      (match parse q with
       | .ok p => some (if p.or_groups.isEmpty then p.patterns.length
                        else (p.or_groups.map List.length).sum)
       | .error _ => none) := by
  cases h : parse q <;> simp [validateQuery, h, Except.isOk, Except.toBool]

/-- Counterexample to C7 as stated: the query `[]{3,1}` parses
successfully into a pattern with `min_count = 3` strictly above
`max_count = 1` — the parser performs no ordering validation on an
explicit `{m,n}` quantifier. -/
theorem c7_counterexample :
    parse "[]\x7b3,1\x7d" =
      .ok { patterns := [{ conditions := [], or_conditions := none, is_any := true,
                           min_count := 3, max_count := 1, optional := false }],
            raw_query := "[]\x7b3,1\x7d", or_groups := [] } ∧
    ¬ ((3 : Int) ≤ 1) := by
  refine ⟨by decide, by decide⟩

/-- Counterexample to C8 as stated: against FOUR consecutive nouns the
query `[pos="NOUN"]{1,3} [pos="NOUN"]` DOES match at start position 0 —
the greedy run consumes three nouns and the fourth satisfies the trailing
pattern, so the whole stream `[0, 4)` is matched. -/
theorem c8_counterexample :
    parse "[pos=\"NOUN\"]\x7b1,3\x7d [pos=\"NOUN\"]" = .ok greedyQ ∧
    fourNouns.length = 4 ∧
    (∀ t ∈ fourNouns, t.pos = some "NOUN") ∧
    tryMatchSequence fourNouns greedyQ.patterns 0 = some (0, 4, fourNouns) ∧
    (findMatchesSimple fourNouns greedyQ 5).map spanOf = [(0, 4)] := by
  refine ⟨by decide, by decide, by decide, by decide, by decide⟩

/-- C8 (amended): the greedy non-backtracking effect shows with THREE
consecutive nouns: `[pos="NOUN"]{1,3} [pos="NOUN"]` fails at start 0 (and
everywhere) because the repetition consumes all three nouns and never
yields one back to the trailing pattern, although the stream allows the
split — the variant `[pos="NOUN"]{1,2} [pos="NOUN"]` matches `[0, 3)`. -/
theorem c8_amended_greedy_failure :
    parse "[pos=\"NOUN\"]\x7b1,3\x7d [pos=\"NOUN\"]" = .ok greedyQ ∧
    threeNouns.length = 3 ∧
    (∀ t ∈ threeNouns, t.pos = some "NOUN") ∧
    tryMatchSequence threeNouns greedyQ.patterns 0 = none ∧
    findMatchesSimple threeNouns greedyQ 5 = [] ∧
    parse "[pos=\"NOUN\"]\x7b1,2\x7d [pos=\"NOUN\"]" = .ok greedyQ2 ∧
    tryMatchSequence threeNouns greedyQ2.patterns 0 = some (0, 3, threeNouns) := by
  refine ⟨by decide, by decide, by decide, by decide, by decide, by decide,
          by decide⟩

/-- Patterns built by `_parse_token_pattern` are well-formed: the
any-token form carries empty condition lists. -/
theorem parseTokenPattern_wf (cs : List Char) (p : TokenPattern) (r : List Char)
    (h : parseTokenPattern cs = .ok (p, r)) : patternWF p := by
  rw [parseTokenPattern] at h
  cases hbs : bracketScan cs 0 with
  | none => rw [hbs] at h; exact absurd h (by simp)
  | some v =>
    obtain ⟨content, after⟩ := v
    rw [hbs] at h
    dsimp only at h
    cases hq : parseQuant after with
    | error e => rw [hq] at h; exact absurd h (by simp)
    | ok v2 =>
      obtain ⟨mn, mx, opt, after2⟩ := v2
      rw [hq] at h
      dsimp only at h
      by_cases hc : trimChars content = []
      · rw [if_pos hc] at h
        obtain ⟨hp, -⟩ : ({ conditions := [], or_conditions := none, is_any := true,
                            min_count := mn, max_count := mx,
                            optional := opt } : TokenPattern) = p ∧ after2 = r := by
          simpa using h
        subst hp
        intro
        exact ⟨rfl, rfl⟩
      · rw [if_neg hc] at h
        cases hpc : parseConditions (trimChars content) with
        | error e => rw [hpc] at h; exact absurd h (by simp)
        | ok v3 =>
          obtain ⟨conds, orC⟩ := v3
          rw [hpc] at h
          obtain ⟨hp, -⟩ : ({ conditions := conds, or_conditions := orC, is_any := false,
                              min_count := mn, max_count := mx,
                              optional := opt } : TokenPattern) = p ∧ after2 = r := by
            simpa using h
          subst hp
          intro hfalse
          exact absurd hfalse (by simp)

/-- Every pattern segment produced by the tokenising loop is
well-formed. -/
theorem scanSegments_wf :
    ∀ (fuel : Nat) (s : List Char) (segs : List Seg),
      scanSegments fuel s = .ok segs →
      ∀ p, Seg.pat p ∈ segs → patternWF p := by
  intro fuel
  induction fuel with
  | zero => intro s segs h; rw [scanSegments] at h; exact absurd h (by simp)
  | succ fuel ih =>
    intro s segs h
    rw [scanSegments] at h
    cases hds : s.dropWhile isWs with
    | nil =>
      rw [hds] at h
      obtain hsegs : ([] : List Seg) = segs := by simpa using h
      intro p hp
      rw [← hsegs] at hp
      exact absurd hp (by simp)
    | cons c rest =>
      rw [hds] at h
      dsimp only at h
      by_cases hc1 : c = '['
      · rw [if_pos hc1] at h
        cases htp : parseTokenPattern rest with
        | error e => rw [htp] at h; exact absurd h (by simp)
        | ok v =>
          obtain ⟨p0, r⟩ := v
          rw [htp] at h
          dsimp only at h
          cases hsc : scanSegments fuel r with
          | error e => rw [hsc] at h; exact absurd h (by simp)
          | ok segs2 =>
            rw [hsc] at h
            obtain hsegs : Seg.pat p0 :: segs2 = segs := by simpa using h
            intro p hp
            rw [← hsegs] at hp
            rcases List.mem_cons.mp hp with hp | hp
            · obtain hpp : p = p0 := by simpa using hp
              exact hpp ▸ parseTokenPattern_wf rest p0 r htp
            · exact ih r segs2 hsc p hp
      · rw [if_neg hc1] at h
        by_cases hc2 : c = '"'
        · rw [if_pos hc2] at h
          cases hsp : splitAtChar rest '"' with
          | none => rw [hsp] at h; exact absurd h (by simp)
          | some v =>
            obtain ⟨w, r⟩ := v
            rw [hsp] at h
            dsimp only at h
            cases hsc : scanSegments fuel r with
            | error e => rw [hsc] at h; exact absurd h (by simp)
            | ok segs2 =>
              rw [hsc] at h
              obtain hsegs : Seg.pat (quotedPattern w) :: segs2 = segs := by simpa using h
              intro p hp
              rw [← hsegs] at hp
              rcases List.mem_cons.mp hp with hp | hp
              · obtain hpp : p = quotedPattern w := by simpa using hp
                rw [hpp]
                intro hfalse
                exact absurd hfalse (by simp [quotedPattern])
              · exact ih r segs2 hsc p hp
        · rw [if_neg hc2] at h
          by_cases hc3 : c = '|'
          · rw [if_pos hc3] at h
            cases hsc : scanSegments fuel rest with
            | error e => rw [hsc] at h; exact absurd h (by simp)
            | ok segs2 =>
              rw [hsc] at h
              obtain hsegs : Seg.orSep :: segs2 = segs := by simpa using h
              intro p hp
              rw [← hsegs] at hp
              rcases List.mem_cons.mp hp with hp | hp
              · exact absurd hp (by simp)
              · exact ih rest segs2 hsc p hp
          · rw [if_neg hc3] at h
            exact absurd h (by simp)

/-- Patterns inside the groups of the grouping loop come from the
running group or from pattern segments. -/
theorem groupSegs_sub :
    ∀ (segs : List Seg) (cur : List TokenPattern) (g : List TokenPattern)
      (p : TokenPattern),
      g ∈ groupSegs segs cur → p ∈ g → p ∈ cur ∨ Seg.pat p ∈ segs := by
  intro segs
  induction segs with
  | nil =>
    intro cur g p hg hp
    rw [groupSegs] at hg
    by_cases hc : cur = []
    · rw [if_pos hc] at hg
      exact absurd hg (by simp)
    · rw [if_neg hc] at hg
      obtain hgc : g = cur := by simpa using hg
      exact Or.inl (hgc ▸ hp)
  | cons s0 rest ih =>
    intro cur g p hg hp
    cases s0 with
    | orSep =>
      rw [groupSegs] at hg
      by_cases hc : cur = []
      · rw [if_pos hc] at hg
        rcases ih [] g p hg hp with hin | hin
        · exact absurd hin (by simp)
        · exact Or.inr (List.mem_cons_of_mem _ hin)
      · rw [if_neg hc] at hg
        rcases List.mem_cons.mp hg with hgc | hgc
        · exact Or.inl (hgc ▸ hp)
        · rcases ih [] g p hgc hp with hin | hin
          · exact absurd hin (by simp)
          · exact Or.inr (List.mem_cons_of_mem _ hin)
    | pat q0 =>
      rw [groupSegs] at hg
      rcases ih (cur ++ [q0]) g p hg hp with hin | hin
      · rcases List.mem_append.mp hin with hin | hin
        · exact Or.inl hin
        · obtain hpq : p = q0 := by simpa using hin
          exact Or.inr (hpq ▸ List.mem_cons_self _ _)
      · exact Or.inr (List.mem_cons_of_mem _ hin)

/-- The grouping loop only emits non-empty groups. -/
theorem groupSegs_ne_nil :
    ∀ (segs : List Seg) (cur : List TokenPattern) (g : List TokenPattern),
      g ∈ groupSegs segs cur → g ≠ [] := by
  intro segs
  induction segs with
  | nil =>
    intro cur g hg
    rw [groupSegs] at hg
    by_cases hc : cur = []
    · rw [if_pos hc] at hg
      exact absurd hg (by simp)
    · rw [if_neg hc] at hg
      obtain hgc : g = cur := by simpa using hg
      exact hgc ▸ hc
  | cons s0 rest ih =>
    intro cur g hg
    cases s0 with
    | orSep =>
      rw [groupSegs] at hg
      by_cases hc : cur = []
      · rw [if_pos hc] at hg
        exact ih [] g hg
      · rw [if_neg hc] at hg
        rcases List.mem_cons.mp hg with hgc | hgc
        · exact hgc ▸ hc
        · exact ih [] g hgc
    | pat q0 =>
      rw [groupSegs] at hg
      exact ih (cur ++ [q0]) g hg

/-- Membership in the pattern projection of a segment list. -/
theorem mem_segPatterns (segs : List Seg) (p : TokenPattern)
    (h : p ∈ segPatterns segs) : Seg.pat p ∈ segs := by
  rw [segPatterns] at h
  obtain ⟨s0, hs0, hfs⟩ := List.mem_filterMap.mp h
  cases s0 with
  | pat q => obtain hq : q = p := by simpa using hfs
             exact hq ▸ hs0
  | orSep => exact absurd hfs (by simp)

/-- C7 (amended): every `Query` that `parse` returns has a non-empty
pattern list; the alternative list is either absent or has at least two
entries (a single alternative collapses to the simple form), and each
alternative is non-empty; every reachable pattern with the `is_any` flag
carries empty condition lists; and when the tokenised segments hold no
top-level OR separator the alternative list is empty.  The invariant
`min_count <= max_count` is NOT restored: the parser accepts `{m,n}` with
`m > n` verbatim (see the counterexample). -/
theorem c7_parse_invariants (q : String) (Q : CQLQuery)
    (h : parse q = .ok Q) :
    Q.patterns ≠ [] ∧
    (Q.or_groups = [] ∨ 2 ≤ Q.or_groups.length) ∧
    (∀ g ∈ Q.or_groups, g ≠ []) ∧
    (∀ p, (p ∈ Q.patterns ∨ ∃ g ∈ Q.or_groups, p ∈ g) → patternWF p) ∧
    (∀ segs, scanSegments ((trimChars q.toList).length + 1) (trimChars q.toList) =
        .ok segs → hasOrSeg segs = false → Q.or_groups = []) := by
  rw [parse] at h
  by_cases htr : trimChars q.toList = []
  · rw [if_pos htr] at h
    exact absurd h (by simp)
  · rw [if_neg htr] at h
    cases hscan : scanSegments ((trimChars q.toList).length + 1) (trimChars q.toList) with
    | error e => rw [hscan] at h; exact absurd h (by simp)
    | ok segs =>
      rw [hscan] at h
      dsimp only at h
      by_cases hnil : segs = []
      · rw [if_pos hnil] at h
        exact absurd h (by simp)
      · rw [if_neg hnil] at h
        by_cases hor : hasOrSeg segs = false
        · rw [if_pos hor] at h
          by_cases hpats : segPatterns segs = []
          · rw [if_pos hpats] at h
            exact absurd h (by simp)
          · rw [if_neg hpats] at h
            obtain hQ : ({ patterns := segPatterns segs,
                           raw_query := (⟨trimChars q.toList⟩ : String),
                           or_groups := [] } : CQLQuery) = Q := by simpa using h
            subst hQ
            refine ⟨hpats, Or.inl rfl, by simp, ?_, fun _ _ _ => rfl⟩
            intro p hp
            rcases hp with hp | ⟨g, hg, -⟩
            · exact scanSegments_wf _ _ segs hscan p (mem_segPatterns segs p hp)
            · exact absurd hg (by simp)
        · rw [if_neg hor] at h
          cases hgr : groupSegs segs [] with
          | nil => rw [hgr] at h; exact absurd h (by simp)
          | cons g gs =>
            cases gs with
            | nil =>
              rw [hgr] at h
              obtain hQ : ({ patterns := g,
                             raw_query := (⟨trimChars q.toList⟩ : String),
                             or_groups := [] } : CQLQuery) = Q := by simpa using h
              subst hQ
              have hgmem : g ∈ groupSegs segs [] := hgr ▸ List.mem_cons_self _ _
              refine ⟨groupSegs_ne_nil segs [] g hgmem, Or.inl rfl, by simp, ?_,
                fun _ _ _ => rfl⟩
              intro p hp
              rcases hp with hp | ⟨g2, hg2, -⟩
              · rcases groupSegs_sub segs [] g p hgmem hp with hin | hin
                · exact absurd hin (by simp)
                · exact scanSegments_wf _ _ segs hscan p hin
              · exact absurd hg2 (by simp)
            | cons g2 gs2 =>
              rw [hgr] at h
              obtain hQ : ({ patterns := g,
                             raw_query := (⟨trimChars q.toList⟩ : String),
                             or_groups := g :: g2 :: gs2 } : CQLQuery) = Q := by
                simpa using h
              subst hQ
              have hmem : ∀ g0 ∈ g :: g2 :: gs2, g0 ∈ groupSegs segs [] := by
                intro g0 hg0
                exact hgr ▸ hg0
              refine ⟨?_, Or.inr (by simp), ?_, ?_, ?_⟩
              · exact groupSegs_ne_nil segs [] g (hmem g (List.mem_cons_self _ _))
              · intro g0 hg0
                exact groupSegs_ne_nil segs [] g0 (hmem g0 hg0)
              · intro p hp
                have hfrom : ∃ g0 ∈ groupSegs segs [] , p ∈ g0 := by
                  rcases hp with hp | ⟨g0, hg0, hpg0⟩
                  · exact ⟨g, hmem g (List.mem_cons_self _ _), hp⟩
                  · exact ⟨g0, hmem g0 hg0, hpg0⟩
                obtain ⟨g0, hg0, hpg0⟩ := hfrom
                rcases groupSegs_sub segs [] g0 p hg0 hpg0 with hin | hin
                · exact absurd hin (by simp)
                · exact scanSegments_wf _ _ segs hscan p hin
              · intro segs2 hscan2 hor2
                obtain hse : segs = segs2 := by simpa using hscan2
                rw [← hse] at hor2
                exact absurd hor2 hor

/-- Witness for C7 at the concrete query `[]`. -/
theorem c7_parse_invariants_witness :
    ([{ conditions := [], or_conditions := none, is_any := true,
        min_count := 1, max_count := 1, optional := false }] : List TokenPattern) ≠ [] := by
  have h := c7_parse_invariants "[]"
    { patterns := [{ conditions := [], or_conditions := none, is_any := true,
                     min_count := 1, max_count := 1, optional := false }],
      raw_query := "[]", or_groups := [] } (by decide)
  exact h.1

end CQL
